import Mathlib

/-!
Shallow embedding of the fixed-capacity open-addressing hash map from
`src/lib.rs` (struct `HashMap<K, V>` with linear probing), together with
proofs about its operations.

Conventions of the embedding:
* The bucket array `Vec<Entry<K,V>>` is a `List (Entry K V)`; indexing
  `self.buckets[i]` is `bucketAt`, with out-of-range reads defaulting to
  `Entry.Empty` (the source only ever indexes with `i % capacity`, and the
  bucket list always has length `capacity`).
* The hash function (`DefaultHasher` + `finish() as usize`) is an opaque
  parameter `hash : K → Nat`; `find_bucket` reduces it modulo the capacity.
  The source's `% self.cap()` panics on a zero divisor, so `find_bucket`
  returns `Option Nat` with `none` standing for that fault.
* Fallible or possibly diverging operations return `Option`: `none` models
  a panic (`unwrap` on `Entry::Empty`, division by zero) or an infinite
  probe loop; `some` carries the value the Rust function returns.
* `remove` decrements the length with truncated `Nat` subtraction,
  matching `self.length -= 1` on the states reachable through the API.
-/

namespace HM

inductive Entry (K V : Type) where
  | Empty : Entry K V
  | KeyPair : K → V → Entry K V
deriving DecidableEq

structure HashMap (K V : Type) where
  buckets : List (Entry K V)
  capacity : Nat
  length : Nat
deriving DecidableEq

variable {K V : Type} [DecidableEq K] [DecidableEq V]

/-- Bucket read `self.buckets[i]`, defaulting to `Empty` out of range. -/
def bucketAt (m : HashMap K V) (i : Nat) : Entry K V :=
  m.buckets.getD i Entry.Empty

/-- Constructor `HashMap::with_capacity`: `capacity` slots, all `Empty`, length 0. -/
def with_capacity (c : Nat) : HashMap K V :=
  ⟨List.replicate c Entry.Empty, c, 0⟩

/-- Constructor `HashMap::new`: default capacity 100. -/
def new : HashMap K V := with_capacity 100

/-- Accessor `HashMap::cap`. -/
def cap (m : HashMap K V) : Nat := m.capacity

/-- Accessor `HashMap::len`. -/
def len (m : HashMap K V) : Nat := m.length

/-- Operation `HashMap::clear`: sets `buckets[i] = Empty` for `i` in `0..capacity`.
Note the source does not touch `self.length`. -/
def clear (m : HashMap K V) : HashMap K V :=
  { m with buckets := (List.range m.capacity).foldl (fun b i => b.set i Entry.Empty) m.buckets }

/-- Hashing `HashMap::find_bucket`: `hash(key) % capacity`; `none` models the
division-by-zero panic when the capacity is 0. -/
def find_bucket (hash : K → Nat) (m : HashMap K V) (k : K) : Option Nat :=
  if m.capacity = 0 then none else some (hash k % m.capacity)

/-- The cyclic index sequence `(h+1) % c, (h+2) % c, ...` of length `n`,
as visited by the probing loops. -/
def scanIdx (c h n : Nat) : List Nat :=
  (List.range n).map (fun j => (h + 1 + j) % c)

/-- The `loop` in `HashMap::insert`: scan for the first `Empty` slot. -/
def findFirstEmpty (m : HashMap K V) : List Nat → Option Nat
  | [] => none
  | i :: rest =>
    match bucketAt m i with
    | Entry.Empty => some i
    | Entry.KeyPair _ _ => findFirstEmpty m rest

/-- Operation `HashMap::insert`.  Returns `none` when `find_bucket` faults or when
the collision loop never finds an `Empty` slot (it has no exit condition
in the source); otherwise `some ((inserted, previous), newTable)`. -/
def insert (hash : K → Nat) (m : HashMap K V) (k : K) (v : V) :
    Option ((Bool × Option V) × HashMap K V) :=
  match find_bucket hash m k with
  | none => none
  | some h =>
    match bucketAt m h with
    | Entry.Empty =>
      some ((true, none),
        { m with buckets := m.buckets.set h (Entry.KeyPair k v), length := m.length + 1 })
    | Entry.KeyPair k0 v0 =>
      if k0 = k then
        some ((true, some v0), { m with buckets := m.buckets.set h (Entry.KeyPair k0 v) })
      else if m.capacity ≤ m.length then
        some ((false, none), m)
      else
        match findFirstEmpty m (scanIdx m.capacity h m.capacity) with
        | none => none
        | some s =>
          some ((true, none),
            { m with buckets := m.buckets.set s (Entry.KeyPair k v), length := m.length + 1 })

/-- The `loop` in `HashMap::probe_key_bucket`: each visited slot is read
with `entry.key().unwrap()`, so an `Empty` slot is a panic (`none`); a
matching key is `some (some i)`; exhausting the cycle is `some none`. -/
def probeSeq (m : HashMap K V) (k : K) : List Nat → Option (Option Nat)
  | [] => some none
  | i :: rest =>
    match bucketAt m i with
    | Entry.Empty => none
    | Entry.KeyPair k0 _ => if k0 = k then some (some i) else probeSeq m k rest

/-- Probing `HashMap::probe_key_bucket`.  `some (some i)` = key found at `i`,
`some none` = Rust `None` (absent), `none` = panic. -/
def probe_key_bucket (hash : K → Nat) (m : HashMap K V) (k : K) : Option (Option Nat) :=
  match find_bucket hash m k with
  | none => none
  | some h =>
    match bucketAt m h with
    | Entry.Empty => some none
    | Entry.KeyPair k0 _ =>
      if k0 = k then some (some h)
      else probeSeq m k (scanIdx m.capacity h (m.capacity - 1))

/-- Lookup `HashMap::get`.  `some o` is the returned `Option<&V>`; `none` is a
panic inside `probe_key_bucket`. -/
def get (hash : K → Nat) (m : HashMap K V) (k : K) : Option (Option V) :=
  match probe_key_bucket hash m k with
  | none => none
  | some none => some none
  | some (some i) =>
    match bucketAt m i with
    | Entry.Empty => some none
    | Entry.KeyPair _ v => some (some v)

/-- Lookup `HashMap::get_mut`: same control flow as `get` (the returned mutable
reference denotes the stored value). -/
def get_mut (hash : K → Nat) (m : HashMap K V) (k : K) : Option (Option V) :=
  match probe_key_bucket hash m k with
  | none => none
  | some none => some none
  | some (some i) =>
    match bucketAt m i with
    | Entry.Empty => some none
    | Entry.KeyPair _ v => some (some v)

/-- Predicate `HashMap::contains_key`: `self.get(key).is_some()`. -/
def contains_key (hash : K → Nat) (m : HashMap K V) (k : K) : Option Bool :=
  match get hash m k with
  | none => none
  | some o => some o.isSome

/-- Removal `HashMap::remove`: on a probe hit, the slot becomes `Empty` and the
length is decremented. -/
def remove (hash : K → Nat) (m : HashMap K V) (k : K) : Option (Bool × HashMap K V) :=
  match probe_key_bucket hash m k with
  | none => none
  | some none => some (false, m)
  | some (some i) =>
    some (true, { m with buckets := m.buckets.set i Entry.Empty, length := m.length - 1 })

/-- The pairs yielded by `HashMapIter` over a bucket list: all occupied
slots in physical order. -/
def entriesList (l : List (Entry K V)) : List (K × V) :=
  l.filterMap (fun e =>
    match e with
    | Entry.Empty => none
    | Entry.KeyPair k v => some (k, v))

/-- The sequence yielded by `HashMap::iter`. -/
def entries (m : HashMap K V) : List (K × V) := entriesList m.buckets

/-- The sequence yielded by `HashMap::keys`. -/
def keysOf (m : HashMap K V) : List K := (entries m).map Prod.fst

/-- The `all` combinator inside `PartialEq::eq`: left-to-right over the
left table's pairs, short-circuiting on the first mismatch, faulting if
`get` on the right table faults. -/
def eqAll (hash : K → Nat) : List (K × V) → HashMap K V → Option Bool
  | [], _ => some true
  | (k, v) :: rest, b =>
    match get hash b k with
    | none => none
    | some none => some false
    | some (some v2) => if v = v2 then eqAll hash rest b else some false

/-- Comparison `PartialEq::eq` for `HashMap`: length check, then iterate the left
table and probe the right. -/
def eq (hash : K → Nat) (a b : HashMap K V) : Option Bool :=
  if a.length = b.length then eqAll hash (entries a) b else some false

/-- The result table of placing a pair into an `Empty` slot `t`, as both
placement branches of `insert` do. -/
def mkPlace (m : HashMap K V) (t : Nat) (k : K) (v : V) : HashMap K V :=
  { m with buckets := m.buckets.set t (Entry.KeyPair k v), length := m.length + 1 }

/-- Every stored key is found by `probe_key_bucket` at its own slot. -/
def reachableB (hash : K → Nat) (m : HashMap K V) : Bool :=
  (List.range m.buckets.length).all (fun j =>
    match m.buckets.getD j Entry.Empty with
    | Entry.Empty => true
    | Entry.KeyPair k _ => decide (probe_key_bucket hash m k = some (some j)))

/-- Well-formedness: full-length bucket list, positive capacity, accurate
length counter, no duplicate keys, and every stored key probe-reachable. -/
def WF (hash : K → Nat) (m : HashMap K V) : Prop :=
  m.buckets.length = m.capacity ∧ 0 < m.capacity ∧
    m.length = (entries m).length ∧ (keysOf m).Nodup ∧ reachableB hash m = true

/-- No key occupies two distinct slots. -/
def UniqueKeys (m : HashMap K V) : Prop :=
  ∀ k i j vi vj, bucketAt m i = Entry.KeyPair k vi → bucketAt m j = Entry.KeyPair k vj → i = j

/-- Structural invariant carried through operation sequences. -/
def Inv (m : HashMap K V) : Prop :=
  m.buckets.length = m.capacity ∧ UniqueKeys m

/-- Key `k` is stored nowhere except (possibly) its home index. -/
def homeOnly (hash : K → Nat) (m : HashMap K V) (k : K) : Prop :=
  ∀ i v0, bucketAt m i = Entry.KeyPair k v0 → i = hash k % m.capacity

/-- One API operation. -/
inductive Op (K V : Type) where
  | ins (k : K) (v : V) : Op K V
  | del (k : K) : Op K V
  | clr : Op K V

/-- A non-faulting run of operations in which every executed insert's key
is, at that moment, stored nowhere but its home index. -/
inductive GoodRun (hash : K → Nat) : HashMap K V → List (Op K V) → HashMap K V → Prop where
  | nil (m : HashMap K V) : GoodRun hash m [] m
  | ins (m : HashMap K V) (k : K) (v : V) (r : Bool × Option V) (m' : HashMap K V)
      (ops : List (Op K V)) (m'' : HashMap K V) :
      homeOnly hash m k → insert hash m k v = some (r, m') →
      GoodRun hash m' ops m'' → GoodRun hash m (Op.ins k v :: ops) m''
  | del (m : HashMap K V) (k : K) (b : Bool) (m' : HashMap K V)
      (ops : List (Op K V)) (m'' : HashMap K V) :
      remove hash m k = some (b, m') →
      GoodRun hash m' ops m'' → GoodRun hash m (Op.del k :: ops) m''
  | clr (m : HashMap K V) (ops : List (Op K V)) (m'' : HashMap K V) :
      GoodRun hash (clear m) ops m'' → GoodRun hash m (Op.clr :: ops) m''

/-- A run of inserts, each succeeding with `inserted = true`. -/
inductive InsertRun (hash : K → Nat) : HashMap K V → List (K × V) → HashMap K V → Prop where
  | nil (m : HashMap K V) : InsertRun hash m [] m
  | cons (m : HashMap K V) (k : K) (v : V) (old : Option V) (m' : HashMap K V)
      (l : List (K × V)) (m'' : HashMap K V) :
      insert hash m k v = some ((true, old), m') →
      InsertRun hash m' l m'' → InsertRun hash m ((k, v) :: l) m''

/-- A concrete hash function used for counterexamples and witnesses; any
two keys whose `DefaultHasher` values agree modulo the capacity exhibit
the same collisions. -/
def hashId : Nat → Nat := fun n => n

/-- Capacity-3 table `{0 ↦ 10}` (key 0 at its home slot 0). -/
def exM1 : HashMap Nat Nat := ⟨[Entry.KeyPair 0 10, Entry.Empty, Entry.Empty], 3, 1⟩

/-- Capacity-3 table after also inserting key 3: key 3 collides at home
slot 0 and is displaced to slot 1. -/
def exM2 : HashMap Nat Nat := ⟨[Entry.KeyPair 0 10, Entry.KeyPair 3 30, Entry.Empty], 3, 2⟩

/-- Table `exM2` after re-inserting key 3 with value 99: key 3 now occupies two
slots. -/
def exA : HashMap Nat Nat :=
  ⟨[Entry.KeyPair 0 10, Entry.KeyPair 3 30, Entry.KeyPair 3 99], 3, 3⟩

/-- Table `exM2` after re-inserting key 3 with value 30 again. -/
def exB : HashMap Nat Nat :=
  ⟨[Entry.KeyPair 0 10, Entry.KeyPair 3 30, Entry.KeyPair 3 30], 3, 3⟩

/-- Capacity-3 table `{0 ↦ 10, 1 ↦ 11}`, both keys at home. -/
def exW2 : HashMap Nat Nat := ⟨[Entry.KeyPair 0 10, Entry.KeyPair 1 11, Entry.Empty], 3, 2⟩

/-- Capacity-1 table `{7 ↦ 1}`. -/
def exC4 : HashMap Nat Nat := ⟨[Entry.KeyPair 7 1], 1, 1⟩

/-- A full capacity-2 table `{0 ↦ 10, 1 ↦ 11}`. -/
def exFull : HashMap Nat Nat := ⟨[Entry.KeyPair 0 10, Entry.KeyPair 1 11], 2, 2⟩

/-! ### Basic list-indexing lemmas -/

theorem getD_set_lt {α : Type} (l : List α) (i : Nat) (a d : α) (h : i < l.length) :
    (l.set i a).getD i d = a := by
  induction l generalizing i with
  | nil => simp at h
  | cons x t ih =>
    cases i with
    | zero => rfl
    | succ n => exact ih n (by simpa using h)

theorem getD_set_ne {α : Type} (l : List α) (i j : Nat) (a d : α) (h : j ≠ i) :
    (l.set i a).getD j d = l.getD j d := by
  induction l generalizing i j with
  | nil => rfl
  | cons x t ih =>
    cases i with
    | zero =>
      cases j with
      | zero => exact absurd rfl h
      | succ n => rfl
    | succ n =>
      cases j with
      | zero => rfl
      | succ p => exact ih n p (fun hc => h (by rw [hc]))

theorem getD_default_of_le {α : Type} (l : List α) (i : Nat) (d : α) (h : l.length ≤ i) :
    l.getD i d = d :=
  List.getD_eq_default l d h

theorem getD_set_empty (l : List (Entry K V)) (i : Nat) :
    (l.set i (Entry.Empty : Entry K V)).getD i Entry.Empty = Entry.Empty := by
  by_cases h : i < l.length
  · exact getD_set_lt l i Entry.Empty Entry.Empty h
  · exact getD_default_of_le _ i _ (by simpa using Nat.le_of_not_lt h)

theorem getD_replicate {α : Type} (n i : Nat) (a : α) :
    (List.replicate n a).getD i a = a := by
  induction n generalizing i with
  | zero => rfl
  | succ p ih =>
    cases i with
    | zero => rfl
    | succ q => exact ih q

theorem bucketAt_with_capacity (c i : Nat) :
    bucketAt (with_capacity c : HashMap K V) i = Entry.Empty :=
  getD_replicate c i Entry.Empty

theorem bucketAt_lt_of_keyPair {m : HashMap K V} {j : Nat} {k : K} {v : V}
    (h : bucketAt m j = Entry.KeyPair k v) : j < m.buckets.length := by
  by_contra hc
  rw [bucketAt, getD_default_of_le _ j _ (Nat.le_of_not_lt hc)] at h
  exact Entry.noConfusion h

/-! ### Entries lemmas -/

theorem mem_entriesList {l : List (Entry K V)} {k : K} {v : V} :
    (k, v) ∈ entriesList l ↔ ∃ j, l.getD j Entry.Empty = Entry.KeyPair k v := by
  constructor
  · intro h
    rcases List.mem_filterMap.mp h with ⟨e, he, hfe⟩
    cases e with
    | Empty => exact absurd hfe (by simp)
    | KeyPair k2 v2 =>
      have hkv : k2 = k ∧ v2 = v := by
        simpa using hfe
      rcases List.mem_iff_getElem.mp he with ⟨j, hj, hgj⟩
      refine ⟨j, ?_⟩
      rw [List.getD_eq_getElem l Entry.Empty hj, hgj, hkv.1, hkv.2]
  · rintro ⟨j, hj⟩
    have hlt : j < l.length := by
      by_contra hc
      rw [getD_default_of_le _ j _ (Nat.le_of_not_lt hc)] at hj
      exact Entry.noConfusion hj
    have hmem : Entry.KeyPair k v ∈ l := by
      rw [List.getD_eq_getElem l Entry.Empty hlt] at hj
      exact hj ▸ List.getElem_mem hlt
    exact List.mem_filterMap.mpr ⟨Entry.KeyPair k v, hmem, rfl⟩

theorem mem_entries {m : HashMap K V} {k : K} {v : V} :
    (k, v) ∈ entries m ↔ ∃ j, bucketAt m j = Entry.KeyPair k v :=
  mem_entriesList

theorem key_mem_keysOf {m : HashMap K V} {j : Nat} {k : K} {v : V}
    (h : bucketAt m j = Entry.KeyPair k v) : k ∈ keysOf m :=
  List.mem_map.mpr ⟨(k, v), mem_entries.mpr ⟨j, h⟩, rfl⟩

theorem entriesList_replicate (n : Nat) :
    entriesList (List.replicate n (Entry.Empty : Entry K V)) = [] := by
  induction n with
  | zero => rfl
  | succ p ih => simpa [entriesList, List.replicate_succ] using ih

theorem entries_with_capacity (c : Nat) : entries (with_capacity c : HashMap K V) = [] :=
  entriesList_replicate c

/-! ### Probe lemmas -/

theorem probeSeq_found {m : HashMap K V} {k : K} {L : List Nat} {i : Nat}
    (h : probeSeq m k L = some (some i)) : ∃ v, bucketAt m i = Entry.KeyPair k v := by
  induction L with
  | nil => simp [probeSeq] at h
  | cons a rest ih =>
    simp only [probeSeq] at h
    rcases hE : bucketAt m a with _ | ⟨k0, v0⟩
    · simp only [hE] at h
      exact Option.noConfusion h
    · simp only [hE] at h
      by_cases hk : k0 = k
      · rw [if_pos hk] at h
        have ha : a = i := by simpa using h
        exact ⟨v0, by rw [← ha, hE, hk]⟩
      · rw [if_neg hk] at h
        exact ih h

theorem probe_found {hash : K → Nat} {m : HashMap K V} {k : K} {i : Nat}
    (h : probe_key_bucket hash m k = some (some i)) :
    ∃ v, bucketAt m i = Entry.KeyPair k v := by
  rcases hfb : find_bucket hash m k with _ | h0
  · simp only [probe_key_bucket, hfb] at h
    exact Option.noConfusion h
  · simp only [probe_key_bucket, hfb] at h
    rcases hE : bucketAt m h0 with _ | ⟨k0, v0⟩
    · simp only [hE] at h
      simp at h
    · simp only [hE] at h
      by_cases hk : k0 = k
      · rw [if_pos hk] at h
        have hh : h0 = i := by simpa using h
        exact ⟨v0, by rw [← hh, hE, hk]⟩
      · rw [if_neg hk] at h
        exact probeSeq_found h

theorem probe_all_empty {hash : K → Nat} {m : HashMap K V} (hc : ¬m.capacity = 0)
    (hb : ∀ i, bucketAt m i = Entry.Empty) (k : K) :
    probe_key_bucket hash m k = some none := by
  simp only [probe_key_bucket, find_bucket, if_neg hc, hb]

/-! ### C1: probing an `Empty` slot mid-chain panics instead of
returning "not found" -/

/-- C1: the claim states that `get`/`get_mut`/`contains_key`/`remove`
never fault and that reaching an `Empty` slot while probing terminates
the search with "not found".  On the reachable capacity-3 table
`{0 ↦ 10}` a lookup of the absent key 3 (whose home index collides with
key 0) steps the probe loop to the `Empty` slot 1 and evaluates
`entry.key().unwrap()` on `Entry::Empty`, which panics (`none` in the
model) in all four operations. -/
theorem c1_lookup_faults :
    insert hashId (with_capacity 3) 0 10 = some ((true, none), exM1) ∧
    get hashId exM1 3 = none ∧
    get_mut hashId exM1 3 = none ∧
    contains_key hashId exM1 3 = none ∧
    remove hashId exM1 3 = none := by
  refine ⟨by decide, by decide, by decide, by decide, by decide⟩

/-! ### C2: update of an existing key -/

/-- C2 counterexample: `exM2` contains key 3 (displaced to slot 1, as
`get` confirms), yet `insert(3, 99)` does not replace the stored value:
it returns `(true, None)` instead of `(true, Some 30)` and grows `len()`
from 2 to 3, duplicating the key. -/
theorem c2_counterexample :
    insert hashId (with_capacity 3) 0 10 = some ((true, none), exM1) ∧
    insert hashId exM1 3 30 = some ((true, none), exM2) ∧
    get hashId exM2 3 = some (some 30) ∧
    insert hashId exM2 3 99 = some ((true, none), exA) ∧
    len exM2 = 2 ∧ len exA = 3 := by
  refine ⟨by decide, by decide, by decide, by decide, by decide, by decide⟩

/-- C2 amended: when the table stores key `k` at the home index of `k`,
`insert(k, v)` replaces the stored value, returns `(true, Some old)`,
and leaves `len()` unchanged (the capacity check is never consulted, so
this holds even on a full table). -/
theorem c2_update_at_home (hash : K → Nat) (m : HashMap K V) (k : K) (v v0 : V)
    (hcap : 0 < m.capacity)
    (hhome : bucketAt m (hash k % m.capacity) = Entry.KeyPair k v0) :
    insert hash m k v =
      some ((true, some v0),
        { m with buckets := m.buckets.set (hash k % m.capacity) (Entry.KeyPair k v) }) ∧
    len { m with buckets := m.buckets.set (hash k % m.capacity) (Entry.KeyPair k v) } = len m := by
  constructor
  · have hc0 : ¬m.capacity = 0 := Nat.pos_iff_ne_zero.mp hcap
    simp only [insert, find_bucket, if_neg hc0, hhome, if_true]
  · rfl

/-- C2 amended, witnessed on `exM1` (key 0 at home slot 0, old value 10). -/
theorem c2_update_at_home_witness :
    insert hashId exM1 0 99 =
      some ((true, some 10),
        { exM1 with buckets := exM1.buckets.set (hashId 0 % exM1.capacity) (Entry.KeyPair 0 99) }) ∧
    len { exM1 with buckets := exM1.buckets.set (hashId 0 % exM1.capacity) (Entry.KeyPair 0 99) } =
      len exM1 :=
  c2_update_at_home hashId exM1 0 99 10 (by decide) (by decide)

/-! ### C4: clear -/

/-- C4: the claim says `clear()` resets every slot to `Empty`, resets the
length to 0, and keeps the capacity.  The code empties the slots and
keeps the capacity but never resets `self.length`: on the capacity-1
table `{7 ↦ 1}`, after `clear()` the single slot is `Empty` and the
capacity is still 1, yet `len()` is still 1 rather than 0. -/
theorem c4_clear_keeps_length :
    insert hashId (with_capacity 1) 7 1 = some ((true, none), exC4) ∧
    (clear exC4).buckets = [Entry.Empty] ∧
    cap (clear exC4) = 1 ∧
    len (clear exC4) = 1 := by
  refine ⟨by decide, by decide, by decide, by decide⟩

/-! ### C6: capacity ceiling -/

/-- C6: on a table whose capacity-many slots are all occupied, whose
length counter equals the capacity, and which does not contain the new
key, `insert` returns `(false, None)` and leaves the table untouched. -/
theorem c6_full_insert_rejected (hash : K → Nat) (m : HashMap K V) (k : K) (v : V)
    (hcap : 0 < m.capacity)
    (hfull : ∀ i, i < m.capacity → bucketAt m i ≠ Entry.Empty)
    (hflen : m.capacity ≤ m.length)
    (hnew : k ∉ keysOf m) :
    insert hash m k v = some ((false, none), m) := by
  have hc0 : ¬m.capacity = 0 := Nat.pos_iff_ne_zero.mp hcap
  rcases hE : bucketAt m (hash k % m.capacity) with _ | ⟨k0, v0⟩
  · exact absurd hE (hfull _ (Nat.mod_lt _ hcap))
  · have hk : ¬k0 = k := by
      intro hk
      exact hnew (key_mem_keysOf (hk ▸ hE))
    simp only [insert, find_bucket, if_neg hc0, hE, if_neg hk, if_pos hflen]

/-- C6 witnessed: the full capacity-2 table `{0 ↦ 10, 1 ↦ 11}` rejects a
third distinct key. -/
theorem c6_full_insert_rejected_witness :
    insert hashId exFull 2 5 = some ((false, none), exFull) :=
  c6_full_insert_rejected hashId exFull 2 5 (by decide) (by decide) (by decide) (by decide)

/-! ### C7: remove -/

/-- C7: when `probe_key_bucket` finds the key at slot `i` (the key's
slot), `remove` returns `true`, empties exactly that slot, and
decrements the length by exactly one; when probing reports "not found",
`remove` returns `false` and performs no mutation. -/
theorem c7_remove_spec (hash : K → Nat) (m : HashMap K V) (k : K) :
    (∀ i, probe_key_bucket hash m k = some (some i) →
      (∃ v, bucketAt m i = Entry.KeyPair k v) ∧
      remove hash m k =
        some (true, { m with buckets := m.buckets.set i Entry.Empty, length := m.length - 1 }) ∧
      bucketAt { m with buckets := m.buckets.set i Entry.Empty, length := m.length - 1 } i =
        Entry.Empty ∧
      (0 < m.length → m.length - 1 + 1 = m.length)) ∧
    (probe_key_bucket hash m k = some none → remove hash m k = some (false, m)) := by
  constructor
  · intro i hp
    refine ⟨probe_found hp, ?_, ?_, fun hlen => Nat.succ_pred_eq_of_pos hlen⟩
    · rw [remove, hp]
    · exact getD_set_empty m.buckets i
  · intro hp
    rw [remove, hp]

/-- C7 witnessed: removing key 0 (stored at slot 0) from `exM1`. -/
theorem c7_remove_spec_witness :
    (∃ v, bucketAt exM1 0 = Entry.KeyPair 0 v) ∧
    remove hashId exM1 0 =
      some (true, { exM1 with buckets := exM1.buckets.set 0 Entry.Empty, length := exM1.length - 1 }) ∧
    bucketAt { exM1 with buckets := exM1.buckets.set 0 Entry.Empty, length := exM1.length - 1 } 0 =
      Entry.Empty ∧
    (0 < exM1.length → exM1.length - 1 + 1 = exM1.length) :=
  (c7_remove_spec hashId exM1 0).1 0 (by decide)

/-! ### C9: the empty default table -/

/-- C9: `new()` has `len() = 0` and `cap() = 100`, `get` of any key
returns absent, and iteration yields no pairs. -/
theorem c9_new_empty (hash : K → Nat) :
    len (new : HashMap K V) = 0 ∧ cap (new : HashMap K V) = 100 ∧
    (∀ k : K, get hash (new : HashMap K V) k = some none) ∧
    entries (new : HashMap K V) = [] := by
  refine ⟨rfl, rfl, ?_, entries_with_capacity 100⟩
  intro k
  have hb : ∀ i, bucketAt (new : HashMap K V) i = Entry.Empty :=
    fun i => bucketAt_with_capacity 100 i
  have hc : ¬(new : HashMap K V).capacity = 0 := by simp [new, with_capacity]
  have hp : probe_key_bucket hash (new : HashMap K V) k = some none :=
    probe_all_empty hc hb k
  simp only [get, hp]

/-! ### C10: zero capacity -/

/-- C10: `with_capacity(0)` itself succeeds (capacity 0, length 0), but
every keyed operation faults: `find_bucket` computes `hash % 0`, which
panics, so `insert`, `get`, `get_mut`, `contains_key`, and `remove` all
fault on the zero-capacity table. -/
theorem c10_zero_capacity_faults :
    cap (with_capacity 0 : HashMap K V) = 0 ∧ len (with_capacity 0 : HashMap K V) = 0 ∧
    (∀ (hash : K → Nat) (k : K) (v : V),
      insert hash (with_capacity 0) k v = none ∧
      get hash (with_capacity 0 : HashMap K V) k = none ∧
      get_mut hash (with_capacity 0 : HashMap K V) k = none ∧
      contains_key hash (with_capacity 0 : HashMap K V) k = none ∧
      remove hash (with_capacity 0 : HashMap K V) k = none) :=
  ⟨rfl, rfl, fun _ _ _ => ⟨rfl, rfl, rfl, rfl, rfl⟩⟩

/-! ### Probe congruence and scanning lemmas -/

theorem probeSeq_congr {m m' : HashMap K V} {k : K} {t : Nat} {L : List Nat} {i : Nat}
    (hsame : ∀ x, x ≠ t → bucketAt m' x = bucketAt m x)
    (ht : bucketAt m t = Entry.Empty)
    (h : probeSeq m k L = some (some i)) : probeSeq m' k L = some (some i) := by
  induction L with
  | nil => simp [probeSeq] at h
  | cons a rest ih =>
    by_cases hat : a = t
    · subst hat
      simp only [probeSeq, ht] at h
      exact Option.noConfusion h
    · simp only [probeSeq] at h ⊢
      rw [hsame a hat]
      rcases hE : bucketAt m a with _ | ⟨k0, v0⟩
      · simp only [hE] at h
        exact Option.noConfusion h
      · simp only [hE] at h ⊢
        by_cases hk : k0 = k
        · rw [if_pos hk] at h ⊢
          exact h
        · rw [if_neg hk] at h ⊢
          exact ih h

theorem probe_congr {hash : K → Nat} {m m' : HashMap K V} {k : K} {t i : Nat}
    (hcap : m'.capacity = m.capacity)
    (hsame : ∀ x, x ≠ t → bucketAt m' x = bucketAt m x)
    (ht : bucketAt m t = Entry.Empty)
    (h : probe_key_bucket hash m k = some (some i)) :
    probe_key_bucket hash m' k = some (some i) := by
  by_cases hc0 : m.capacity = 0
  · simp only [probe_key_bucket, find_bucket, if_pos hc0] at h
    exact Option.noConfusion h
  · by_cases hht : hash k % m.capacity = t
    · simp only [probe_key_bucket, find_bucket, if_neg hc0, hht, ht] at h
      simp at h
    · simp only [probe_key_bucket, find_bucket, hcap, if_neg hc0] at h ⊢
      rw [hsame _ hht]
      rcases hE : bucketAt m (hash k % m.capacity) with _ | ⟨k0, v0⟩
      · simp only [hE] at h
        simp at h
      · simp only [hE] at h ⊢
        by_cases hk : k0 = k
        · rw [if_pos hk] at h ⊢
          exact h
        · rw [if_neg hk] at h ⊢
          exact probeSeq_congr hsame ht h

theorem probeSeq_skip {m : HashMap K V} {k : K} {L1 L2 : List Nat}
    (hocc : ∀ i ∈ L1, ∃ k1 v1, bucketAt m i = Entry.KeyPair k1 v1 ∧ ¬k1 = k) :
    probeSeq m k (L1 ++ L2) = probeSeq m k L2 := by
  induction L1 with
  | nil => rfl
  | cons a rest ih =>
    rcases hocc a (List.mem_cons_self a rest) with ⟨k1, v1, hE, hk⟩
    simp only [List.cons_append, probeSeq, hE, if_neg hk]
    exact ih (fun i hi => hocc i (List.mem_cons_of_mem a hi))

theorem probe_at_self {hash : K → Nat} {m2 : HashMap K V} {k : K} {v : V} {t : Nat}
    (hc0 : ¬m2.capacity = 0) (hht : hash k % m2.capacity = t)
    (hAt : bucketAt m2 t = Entry.KeyPair k v) :
    probe_key_bucket hash m2 k = some (some t) := by
  simp only [probe_key_bucket, find_bucket, if_neg hc0, hht, hAt, eq_self_iff_true, if_true]

theorem probe_via_scan {hash : K → Nat} {m2 : HashMap K V} {k k0 : K} {v v0 : V}
    {h0 : Nat} {L1 L2 : List Nat} {s : Nat}
    (hc0 : ¬m2.capacity = 0)
    (hh0 : hash k % m2.capacity = h0)
    (hE : bucketAt m2 h0 = Entry.KeyPair k0 v0) (hk0 : ¬k0 = k)
    (hscan : scanIdx m2.capacity h0 (m2.capacity - 1) = L1 ++ s :: L2)
    (hocc : ∀ i ∈ L1, ∃ k1 v1, bucketAt m2 i = Entry.KeyPair k1 v1 ∧ ¬k1 = k)
    (hAt : bucketAt m2 s = Entry.KeyPair k v) :
    probe_key_bucket hash m2 k = some (some s) := by
  simp only [probe_key_bucket, find_bucket, if_neg hc0, hh0, hE, if_neg hk0, hscan]
  rw [probeSeq_skip hocc]
  simp only [probeSeq, hAt, eq_self_iff_true, if_true]

theorem findFirstEmpty_none {m : HashMap K V} {L : List Nat}
    (hocc : ∀ i ∈ L, bucketAt m i ≠ Entry.Empty) : findFirstEmpty m L = none := by
  induction L with
  | nil => rfl
  | cons a rest ih =>
    rcases hE : bucketAt m a with _ | ⟨k0, v0⟩
    · exact absurd hE (hocc a (List.mem_cons_self a rest))
    · simp only [findFirstEmpty, hE]
      exact ih (fun i hi => hocc i (List.mem_cons_of_mem a hi))

theorem findFirstEmpty_append {m : HashMap K V} {L1 L2 : List Nat}
    (hocc : ∀ i ∈ L2, bucketAt m i ≠ Entry.Empty) :
    findFirstEmpty m (L1 ++ L2) = findFirstEmpty m L1 := by
  induction L1 with
  | nil => exact findFirstEmpty_none hocc
  | cons a rest ih =>
    rcases hE : bucketAt m a with _ | ⟨k0, v0⟩
    · simp only [List.cons_append, findFirstEmpty, hE]
    · simp only [List.cons_append, findFirstEmpty, hE]
      exact ih

theorem findFirstEmpty_spec {m : HashMap K V} {L : List Nat} {s : Nat}
    (h : findFirstEmpty m L = some s) :
    bucketAt m s = Entry.Empty ∧
      ∃ L1 L2, L = L1 ++ s :: L2 ∧ ∀ i ∈ L1, bucketAt m i ≠ Entry.Empty := by
  induction L with
  | nil => simp [findFirstEmpty] at h
  | cons a rest ih =>
    rcases hE : bucketAt m a with _ | ⟨k0, v0⟩
    · simp only [findFirstEmpty, hE] at h
      have ha : a = s := by simpa using h
      subst ha
      exact ⟨hE, [], rest, rfl, by simp⟩
    · simp only [findFirstEmpty, hE] at h
      rcases ih h with ⟨hsE, L1, L2, happ, hocc⟩
      refine ⟨hsE, a :: L1, L2, congrArg (List.cons a) happ, ?_⟩
      intro i hi
      rcases List.mem_cons.mp hi with hi1 | hi2
      · subst hi1
        rw [hE]
        simp
      · exact hocc i hi2

theorem scanIdx_lt {c h n i : Nat} (hc : 0 < c) (hi : i ∈ scanIdx c h n) : i < c := by
  rcases List.mem_map.mp hi with ⟨j, hj, rfl⟩
  exact Nat.mod_lt _ hc

theorem scanIdx_succ_last (c h : Nat) (hc : 0 < c) (hh : h < c) :
    scanIdx c h c = scanIdx c h (c - 1) ++ [h] := by
  have hc1 : c = (c - 1) + 1 := (Nat.succ_pred_eq_of_pos hc).symm
  have hr : List.range c = List.range (c - 1) ++ [c - 1] := by
    conv_lhs => rw [hc1]
    exact List.range_succ _
  rw [scanIdx, hr, List.map_append]
  simp only [List.map_cons, List.map_nil]
  have hm : (h + 1 + (c - 1)) % c = h := by
    have h1 : h + 1 + (c - 1) = h + c := by omega
    rw [h1, Nat.add_mod_right, Nat.mod_eq_of_lt hh]
  rw [hm]
  rfl

/-! ### Entries of a placement -/

theorem entriesList_set_perm {l : List (Entry K V)} {t : Nat} {k : K} {v : V}
    (hE : l.getD t Entry.Empty = Entry.Empty) (ht : t < l.length) :
    List.Perm (entriesList (l.set t (Entry.KeyPair k v))) ((k, v) :: entriesList l) := by
  induction l generalizing t with
  | nil => simp at ht
  | cons e rest ih =>
    cases t with
    | zero =>
      have he : e = Entry.Empty := hE
      subst he
      simp [entriesList]
    | succ t2 =>
      have hE2 : rest.getD t2 Entry.Empty = Entry.Empty := hE
      have ht2 : t2 < rest.length := by simpa using ht
      have ihp := ih hE2 ht2
      rcases e with _ | ⟨ke, ve⟩
      · simpa [entriesList] using ihp
      · have step1 : List.Perm ((ke, ve) :: entriesList (rest.set t2 (Entry.KeyPair k v)))
            ((ke, ve) :: (k, v) :: entriesList rest) := List.Perm.cons _ ihp
        have step2 : List.Perm ((ke, ve) :: (k, v) :: entriesList rest)
            ((k, v) :: (ke, ve) :: entriesList rest) := List.Perm.swap _ _ _
        simpa [entriesList] using step1.trans step2

/-! ### Reachability and well-formedness -/

theorem reachableB_spec {hash : K → Nat} {m : HashMap K V} (h : reachableB hash m = true)
    {j : Nat} {k : K} {v : V} (hj : bucketAt m j = Entry.KeyPair k v) :
    probe_key_bucket hash m k = some (some j) := by
  have hjl : j < m.buckets.length := bucketAt_lt_of_keyPair hj
  have hall := List.all_eq_true.mp h j (List.mem_range.mpr hjl)
  have hj2 : m.buckets.getD j Entry.Empty = Entry.KeyPair k v := hj
  simp only [hj2] at hall
  exact of_decide_eq_true hall

theorem reachableB_intro {hash : K → Nat} {m : HashMap K V}
    (h : ∀ j k v, bucketAt m j = Entry.KeyPair k v → probe_key_bucket hash m k = some (some j)) :
    reachableB hash m = true := by
  simp only [reachableB, List.all_eq_true]
  intro j hj
  rcases hE : m.buckets.getD j Entry.Empty with _ | ⟨k, v⟩
  · simp [hE]
  · simp only [hE]
    exact decide_eq_true (h j k v hE)

theorem WF_with_capacity (hash : K → Nat) (c : Nat) (hc : 0 < c) :
    WF hash (with_capacity c : HashMap K V) := by
  refine ⟨by simp [with_capacity], hc, ?_, ?_, ?_⟩
  · simp [with_capacity, entries, entriesList_replicate]
  · simp [keysOf, entries, with_capacity, entriesList_replicate]
  · refine reachableB_intro ?_
    intro j k v hj
    rw [bucketAt_with_capacity c j] at hj
    exact Entry.noConfusion hj

theorem lookup_found {hash : K → Nat} {m : HashMap K V} {k : K} {v : V}
    (hwf : WF hash m) (hmem : (k, v) ∈ entries m) : get hash m k = some (some v) := by
  rcases mem_entries.mp hmem with ⟨j, hj⟩
  have hp : probe_key_bucket hash m k = some (some j) := reachableB_spec hwf.2.2.2.2 hj
  simp only [get, hp, hj]

theorem get_found_mem {hash : K → Nat} {m : HashMap K V} {k : K} {v : V}
    (h : get hash m k = some (some v)) : (k, v) ∈ entries m := by
  rcases hp : probe_key_bucket hash m k with _ | o
  · simp only [get, hp] at h
    exact Option.noConfusion h
  · rcases o with _ | i
    · simp only [get, hp] at h
      simp at h
    · simp only [get, hp] at h
      rcases probe_found hp with ⟨v2, hE⟩
      have hv : v2 = v := by
        simp only [hE] at h
        simpa using h
      exact mem_entries.mpr ⟨i, by rw [hE, hv]⟩

/-! ### Insertion of a fresh key preserves well-formedness -/

theorem insert_place {hash : K → Nat} {m : HashMap K V} {k : K} {v : V} {t : Nat}
    (hwf : WF hash m) (hfresh : k ∉ keysOf m)
    (htE : bucketAt m t = Entry.Empty) (hlt : t < m.buckets.length)
    (hpnew : probe_key_bucket hash (mkPlace m t k v) k = some (some t)) :
    WF hash (mkPlace m t k v) ∧
      List.Perm (entries (mkPlace m t k v)) ((k, v) :: entries m) := by
  have hblen := hwf.1
  have hcap := hwf.2.1
  have hlen := hwf.2.2.1
  have hnd := hwf.2.2.2.1
  have hreach := hwf.2.2.2.2
  have hperm : List.Perm (entries (mkPlace m t k v)) ((k, v) :: entries m) :=
    entriesList_set_perm htE hlt
  have hsame : ∀ x, x ≠ t → bucketAt (mkPlace m t k v) x = bucketAt m x := by
    intro x hx
    simp only [mkPlace, bucketAt]
    exact getD_set_ne _ _ _ _ _ hx
  have hAt : bucketAt (mkPlace m t k v) t = Entry.KeyPair k v := by
    simp only [mkPlace, bucketAt]
    exact getD_set_lt _ _ _ _ hlt
  refine ⟨⟨?_, hcap, ?_, ?_, ?_⟩, hperm⟩
  · simp [mkPlace, hblen]
  · show m.length + 1 = (entries (mkPlace m t k v)).length
    rw [hperm.length_eq]
    simp [hlen]
  · have hkmap : List.Perm (keysOf (mkPlace m t k v)) (k :: keysOf m) := by
      simpa [keysOf] using hperm.map Prod.fst
    exact hkmap.nodup_iff.mpr (List.nodup_cons.mpr ⟨hfresh, hnd⟩)
  · refine reachableB_intro ?_
    intro j k2 v2 hj
    by_cases hjt : j = t
    · subst hjt
      rw [hAt] at hj
      have hkv : k = k2 ∧ v = v2 := by simpa using hj
      rw [← hkv.1]
      exact hpnew
    · have hjold : bucketAt m j = Entry.KeyPair k2 v2 := by
        rw [← hsame j hjt]
        exact hj
      have hpold : probe_key_bucket hash m k2 = some (some j) := reachableB_spec hreach hjold
      refine probe_congr ?_ hsame htE hpold
      rfl

theorem insert_new {hash : K → Nat} {m : HashMap K V} {k : K} {v : V} {old : Option V}
    {m' : HashMap K V} (hwf : WF hash m) (hfresh : k ∉ keysOf m)
    (hins : insert hash m k v = some ((true, old), m')) :
    WF hash m' ∧ List.Perm (entries m') ((k, v) :: entries m) := by
  have hblen := hwf.1
  have hcappos := hwf.2.1
  have hc0 : ¬m.capacity = 0 := Nat.pos_iff_ne_zero.mp hcappos
  have hh : hash k % m.capacity < m.capacity := Nat.mod_lt _ hcappos
  rcases hE : bucketAt m (hash k % m.capacity) with _ | ⟨k0, v0⟩
  · simp only [insert, find_bucket, if_neg hc0, hE] at hins
    injection hins with h3
    injection h3 with h4 h5
    subst h5
    have hlt : hash k % m.capacity < m.buckets.length := by
      rw [hblen]
      exact hh
    have hAt : bucketAt (mkPlace m (hash k % m.capacity) k v) (hash k % m.capacity) =
        Entry.KeyPair k v := by
      simp only [mkPlace, bucketAt]
      exact getD_set_lt _ _ _ _ hlt
    have hpnew : probe_key_bucket hash (mkPlace m (hash k % m.capacity) k v) k =
        some (some (hash k % m.capacity)) := probe_at_self hc0 rfl hAt
    exact insert_place hwf hfresh hE hlt hpnew
  · have hk0 : ¬k0 = k := fun hk => hfresh (key_mem_keysOf (hk ▸ hE))
    by_cases hfull : m.capacity ≤ m.length
    · simp only [insert, find_bucket, if_neg hc0, hE, if_neg hk0, if_pos hfull] at hins
      injection hins with h3
      injection h3 with h4 h5
      injection h4 with h6 h7
      exact Bool.noConfusion h6
    · rcases hF : findFirstEmpty m (scanIdx m.capacity (hash k % m.capacity) m.capacity)
        with _ | s
      · simp only [insert, find_bucket, if_neg hc0, hE, if_neg hk0, if_neg hfull, hF] at hins
        exact Option.noConfusion hins
      · simp only [insert, find_bucket, if_neg hc0, hE, if_neg hk0, if_neg hfull, hF] at hins
        injection hins with h3
        injection h3 with h4 h5
        subst h5
        have hocch : ∀ i ∈ [hash k % m.capacity], bucketAt m i ≠ Entry.Empty := by
          intro i hi
          have hieq : i = hash k % m.capacity := by simpa using hi
          rw [hieq, hE]
          simp
        have hF1 : findFirstEmpty m
            (scanIdx m.capacity (hash k % m.capacity) (m.capacity - 1)) = some s := by
          rw [scanIdx_succ_last m.capacity (hash k % m.capacity) hcappos hh,
            findFirstEmpty_append hocch] at hF
          exact hF
        obtain ⟨hsE, L1, L2, happ, hocc1⟩ := findFirstEmpty_spec hF1
        have hs_mem : s ∈ scanIdx m.capacity (hash k % m.capacity) (m.capacity - 1) := by
          rw [happ]
          exact List.mem_append_right _ (List.mem_cons_self _ _)
        have hs_lt : s < m.buckets.length := by
          rw [hblen]
          exact scanIdx_lt hcappos hs_mem
        have hAt : bucketAt (mkPlace m s k v) s = Entry.KeyPair k v := by
          simp only [mkPlace, bucketAt]
          exact getD_set_lt _ _ _ _ hs_lt
        have hsame : ∀ x, x ≠ s → bucketAt (mkPlace m s k v) x = bucketAt m x := by
          intro x hx
          simp only [mkPlace, bucketAt]
          exact getD_set_ne _ _ _ _ _ hx
        have hhome_ne : hash k % m.capacity ≠ s := by
          intro hcontra
          rw [hcontra, hsE] at hE
          exact Entry.noConfusion hE
        have hE2 : bucketAt (mkPlace m s k v) (hash k % m.capacity) = Entry.KeyPair k0 v0 := by
          rw [hsame _ hhome_ne]
          exact hE
        have hocc2 : ∀ i ∈ L1, ∃ k1 v1,
            bucketAt (mkPlace m s k v) i = Entry.KeyPair k1 v1 ∧ ¬k1 = k := by
          intro i hi
          rcases hEi : bucketAt m i with _ | ⟨k1, v1⟩
          · exact absurd hEi (hocc1 i hi)
          · have hine : i ≠ s := by
              intro hcontra
              rw [hcontra, hsE] at hEi
              exact Entry.noConfusion hEi
            refine ⟨k1, v1, by rw [hsame i hine]; exact hEi, ?_⟩
            intro hk1
            exact hfresh (key_mem_keysOf (hk1 ▸ hEi))
        have hpnew : probe_key_bucket hash (mkPlace m s k v) k = some (some s) :=
          probe_via_scan hc0 rfl hE2 hk0 happ hocc2 hAt
        exact insert_place hwf hfresh hsE hs_lt hpnew

/-! ### Runs of successful inserts -/

theorem insertRun_inv {hash : K → Nat} {m : HashMap K V} {l : List (K × V)}
    {m2 : HashMap K V} (hrun : InsertRun hash m l m2) :
    WF hash m → (l.map Prod.fst).Nodup → (∀ p ∈ l, p.1 ∉ keysOf m) →
    WF hash m2 ∧ List.Perm (entries m2) (l ++ entries m) := by
  induction hrun with
  | nil m => exact fun hwf _ _ => ⟨hwf, by simp⟩
  | cons m k v old m' l m2 hins hrun ih =>
    intro hwf hnodup hfresh
    have hkfresh : k ∉ keysOf m := hfresh (k, v) (List.mem_cons_self _ _)
    obtain ⟨hwf', hperm'⟩ := insert_new hwf hkfresh hins
    have hnodup2 : (k :: l.map Prod.fst).Nodup := hnodup
    have hknotin : k ∉ l.map Prod.fst := (List.nodup_cons.mp hnodup2).1
    have hnd' : (l.map Prod.fst).Nodup := (List.nodup_cons.mp hnodup2).2
    have hfresh' : ∀ p ∈ l, p.1 ∉ keysOf m' := by
      intro p hp hmem
      have hkeys : List.Perm (keysOf m') (k :: keysOf m) := by
        simpa [keysOf] using hperm'.map Prod.fst
      have hp2 : p.1 ∈ k :: keysOf m := hkeys.mem_iff.mp hmem
      rcases List.mem_cons.mp hp2 with h1 | h2
      · apply hknotin
        rw [← h1]
        exact List.mem_map_of_mem Prod.fst hp
      · exact hfresh p (List.mem_cons_of_mem _ hp) h2
    obtain ⟨hwf2, hperm2⟩ := ih hwf' hnd' hfresh'
    refine ⟨hwf2, ?_⟩
    have p1 : List.Perm (entries m2) (l ++ ((k, v) :: entries m)) :=
      hperm2.trans (List.Perm.append_left l hperm')
    have p2 : List.Perm (l ++ ((k, v) :: entries m)) ((k, v) :: (l ++ entries m)) :=
      List.perm_middle
    exact p1.trans p2

/-! ### C5: round trip -/

/-- C5 counterexample: the inserts `(0,10)`, `(3,30)`, `(3,99)` all
succeed (each returns `inserted = true`), the latest value assigned to
key 3 is 99, yet `get 3` walks the probe chain to slot 1 and returns the
stale value 30. -/
theorem c5_counterexample :
    insert hashId (with_capacity 3) 0 10 = some ((true, none), exM1) ∧
    insert hashId exM1 3 30 = some ((true, none), exM2) ∧
    insert hashId exM2 3 99 = some ((true, none), exA) ∧
    get hashId exA 3 = some (some 30) ∧ ¬(30 : Nat) = 99 := by
  refine ⟨by decide, by decide, by decide, by decide, by decide⟩

/-- C5 amended: for any sequence of successful inserts of pairwise
distinct keys (no key inserted twice) and no removals, every inserted
key is retrievable via `get` with its assigned value. -/
theorem c5_round_trip_distinct (hash : K → Nat) (c : Nat) (l : List (K × V)) (m : HashMap K V)
    (hnodup : (l.map Prod.fst).Nodup)
    (hrun : InsertRun hash (with_capacity c) l m) :
    ∀ k v, (k, v) ∈ l → get hash m k = some (some v) := by
  intro k v hmem
  rcases l with _ | ⟨⟨k1, v1⟩, t⟩
  · simp at hmem
  · have hcpos : 0 < c := by
      by_contra hcneg
      have hc0 : c = 0 := Nat.eq_zero_of_not_pos hcneg
      subst hc0
      cases hrun with
      | cons _ _ _ old m' _ _ hins _ =>
        simp [insert, find_bucket, with_capacity] at hins
    have hwf0 : WF hash (with_capacity c : HashMap K V) := WF_with_capacity hash c hcpos
    have hfresh0 : ∀ p ∈ (k1, v1) :: t, p.1 ∉ keysOf (with_capacity c : HashMap K V) := by
      intro p hp
      simp [keysOf, entries_with_capacity]
    obtain ⟨hwfm, hperm⟩ := insertRun_inv hrun hwf0 hnodup hfresh0
    have hmem2 : (k, v) ∈ ((k1, v1) :: t) ++ entries (with_capacity c : HashMap K V) :=
      List.mem_append.mpr (Or.inl hmem)
    exact lookup_found hwfm (hperm.mem_iff.mpr hmem2)

/-- C5 amended, witnessed on the run inserting `(0,10)` then `(1,11)`
into a fresh capacity-3 table. -/
theorem c5_round_trip_distinct_witness : get hashId exW2 0 = some (some 10) :=
  c5_round_trip_distinct hashId 3 [(0, 10), (1, 11)] exW2 (by decide)
    (InsertRun.cons _ 0 10 none exM1 _ _ (by decide)
      (InsertRun.cons _ 1 11 none exW2 _ _ (by decide) (InsertRun.nil _)))
    0 10 (by decide)

/-! ### C3: key uniqueness through operation sequences -/

theorem uniqueKeys_set {m m' : HashMap K V} {t : Nat} {k : K} {v : V}
    (hb : m'.buckets = m.buckets.set t (Entry.KeyPair k v))
    (hu : UniqueKeys m)
    (honly : ∀ i v0, bucketAt m i = Entry.KeyPair k v0 → i = t) :
    UniqueKeys m' := by
  have hat : ∀ x, x ≠ t → bucketAt m' x = bucketAt m x := by
    intro x hx
    simp only [bucketAt]
    rw [hb]
    exact getD_set_ne _ _ _ _ _ hx
  have hmt : bucketAt m' t = Entry.KeyPair k v ∨ bucketAt m' t = Entry.Empty := by
    by_cases htl : t < m.buckets.length
    · left
      simp only [bucketAt]
      rw [hb]
      exact getD_set_lt _ _ _ _ htl
    · right
      simp only [bucketAt]
      rw [hb]
      refine getD_default_of_le _ _ _ ?_
      rw [List.length_set]
      omega
  have hkey : ∀ x k2 v2, bucketAt m' x = Entry.KeyPair k2 v2 → x = t → k2 = k := by
    intro x k2 v2 hx hxt
    subst hxt
    rcases hmt with h1 | h1
    · rw [h1] at hx
      exact ((by simpa using hx : k = k2 ∧ v = v2)).1.symm
    · rw [h1] at hx
      exact Entry.noConfusion hx
  intro k2 i j vi vj hi hj
  by_cases hit : i = t <;> by_cases hjt : j = t
  · rw [hit, hjt]
  · exfalso
    have hk2 : k2 = k := hkey i k2 vi hi hit
    rw [hat j hjt] at hj
    exact hjt (honly j vj (hk2 ▸ hj))
  · exfalso
    have hk2 : k2 = k := hkey j k2 vj hj hjt
    rw [hat i hit] at hi
    exact hit (honly i vi (hk2 ▸ hi))
  · rw [hat i hit] at hi
    rw [hat j hjt] at hj
    exact hu k2 i j vi vj hi hj

theorem inv_insert {hash : K → Nat} {m : HashMap K V} {k : K} {v : V}
    {r : Bool × Option V} {m' : HashMap K V}
    (hinv : Inv m) (hhome : homeOnly hash m k)
    (hins : insert hash m k v = some (r, m')) : Inv m' := by
  obtain ⟨hblen, hu⟩ := hinv
  by_cases hc0 : m.capacity = 0
  · simp only [insert, find_bucket, if_pos hc0] at hins
    exact Option.noConfusion hins
  · rcases hE : bucketAt m (hash k % m.capacity) with _ | ⟨k0, v0⟩
    · simp only [insert, find_bucket, if_neg hc0, hE] at hins
      injection hins with h3
      injection h3 with h4 h5
      subst h5
      refine ⟨by simp [hblen], ?_⟩
      exact uniqueKeys_set rfl hu (fun i v0 hi => hhome i v0 hi)
    · by_cases hk0 : k0 = k
      · simp only [insert, find_bucket, if_neg hc0, hE, if_pos hk0] at hins
        injection hins with h3
        injection h3 with h4 h5
        subst h5
        refine ⟨by simp [hblen], ?_⟩
        refine uniqueKeys_set rfl hu ?_
        intro i v2 hi
        rw [hk0] at hi
        exact hhome i v2 hi
      · by_cases hfull : m.capacity ≤ m.length
        · simp only [insert, find_bucket, if_neg hc0, hE, if_neg hk0, if_pos hfull] at hins
          injection hins with h3
          injection h3 with h4 h5
          subst h5
          exact ⟨hblen, hu⟩
        · rcases hF : findFirstEmpty m (scanIdx m.capacity (hash k % m.capacity) m.capacity)
            with _ | s
          · simp only [insert, find_bucket, if_neg hc0, hE, if_neg hk0, if_neg hfull,
              hF] at hins
            exact Option.noConfusion hins
          · simp only [insert, find_bucket, if_neg hc0, hE, if_neg hk0, if_neg hfull,
              hF] at hins
            injection hins with h3
            injection h3 with h4 h5
            subst h5
            refine ⟨by simp [hblen], ?_⟩
            refine uniqueKeys_set rfl hu ?_
            intro i v2 hi
            exfalso
            have hih := hhome i v2 hi
            rw [hih, hE] at hi
            injection hi with ha hb
            exact hk0 ha

theorem inv_remove {hash : K → Nat} {m : HashMap K V} {k : K} {b : Bool}
    {m' : HashMap K V} (hinv : Inv m) (hrem : remove hash m k = some (b, m')) : Inv m' := by
  obtain ⟨hblen, hu⟩ := hinv
  rcases hp : probe_key_bucket hash m k with _ | o
  · simp only [remove, hp] at hrem
    exact Option.noConfusion hrem
  · rcases o with _ | i
    · simp only [remove, hp] at hrem
      injection hrem with h3
      injection h3 with h4 h5
      subst h5
      exact ⟨hblen, hu⟩
    · simp only [remove, hp] at hrem
      injection hrem with h3
      injection h3 with h4 h5
      subst h5
      refine ⟨by simp [hblen], ?_⟩
      intro k2 i2 j2 vi vj hi hj
      have hEi : bucketAt { m with buckets := m.buckets.set i Entry.Empty, length := m.length - 1 } i = Entry.Empty :=
        getD_set_empty m.buckets i
      by_cases hii : i2 = i
      · exfalso
        rw [hii, hEi] at hi
        exact Entry.noConfusion hi
      · by_cases hjj : j2 = i
        · exfalso
          rw [hjj, hEi] at hj
          exact Entry.noConfusion hj
        · have hi2 : bucketAt m i2 = Entry.KeyPair k2 vi := by
            rw [← hi]
            simp only [bucketAt]
            exact (getD_set_ne _ _ _ _ _ hii).symm
          have hj2 : bucketAt m j2 = Entry.KeyPair k2 vj := by
            rw [← hj]
            simp only [bucketAt]
            exact (getD_set_ne _ _ _ _ _ hjj).symm
          exact hu k2 i2 j2 vi vj hi2 hj2

theorem foldl_set_length (n : Nat) (b : List (Entry K V)) :
    ((List.range n).foldl (fun b2 i => b2.set i Entry.Empty) b).length = b.length := by
  induction n with
  | zero => rfl
  | succ p ih =>
    rw [List.range_succ, List.foldl_append]
    simp only [List.foldl_cons, List.foldl_nil]
    rw [List.length_set]
    exact ih

theorem foldl_set_getD (n : Nat) (b : List (Entry K V)) (i : Nat) :
    ((List.range n).foldl (fun b2 j => b2.set j Entry.Empty) b).getD i Entry.Empty =
      if i < n then Entry.Empty else b.getD i Entry.Empty := by
  induction n with
  | zero => simp
  | succ p ih =>
    rw [List.range_succ, List.foldl_append]
    simp only [List.foldl_cons, List.foldl_nil]
    by_cases hip : i = p
    · subst hip
      rw [getD_set_empty, if_pos (Nat.lt_succ_self i)]
    · rw [getD_set_ne _ _ _ _ _ hip, ih]
      by_cases hlt : i < p
      · rw [if_pos hlt, if_pos (Nat.lt_succ_of_lt hlt)]
      · rw [if_neg hlt, if_neg (by omega)]

theorem clear_bucketAt {m : HashMap K V} (i : Nat) (hblen : m.buckets.length = m.capacity) :
    bucketAt (clear m) i = Entry.Empty := by
  simp only [clear, bucketAt]
  rw [foldl_set_getD]
  by_cases hic : i < m.capacity
  · rw [if_pos hic]
  · rw [if_neg hic]
    exact getD_default_of_le _ _ _ (by omega)

theorem inv_clear {m : HashMap K V} (hinv : Inv m) : Inv (clear m) := by
  refine ⟨?_, ?_⟩
  · show (clear m).buckets.length = (clear m).capacity
    simp only [clear]
    rw [foldl_set_length]
    exact hinv.1
  · intro k2 i j vi vj hi hj
    rw [clear_bucketAt i hinv.1] at hi
    exact Entry.noConfusion hi

theorem goodRun_inv {hash : K → Nat} {m : HashMap K V} {ops : List (Op K V)}
    {m2 : HashMap K V} (hrun : GoodRun hash m ops m2) : Inv m → Inv m2 := by
  induction hrun with
  | nil m => exact id
  | ins m k v r m' ops m2 hhome hins hrun ih => exact fun hinv => ih (inv_insert hinv hhome hins)
  | del m k b m' ops m2 hrem hrun ih => exact fun hinv => ih (inv_remove hinv hrem)
  | clr m ops m2 hrun ih => exact fun hinv => ih (inv_clear hinv)

/-- C3 counterexample: the plain insert sequence `(0,10)`, `(3,30)`,
`(3,99)` into a fresh capacity-3 table (the third insert re-supplies
key 3, which sits displaced at slot 1) leaves key 3 occupying both slot
1 and slot 2. -/
theorem c3_counterexample :
    insert hashId (with_capacity 3) 0 10 = some ((true, none), exM1) ∧
    insert hashId exM1 3 30 = some ((true, none), exM2) ∧
    insert hashId exM2 3 99 = some ((true, none), exA) ∧
    bucketAt exA 1 = Entry.KeyPair 3 30 ∧ bucketAt exA 2 = Entry.KeyPair 3 99 := by
  refine ⟨by decide, by decide, by decide, by decide, by decide⟩

/-- C3 amended: in every table reachable from construction by a
non-faulting sequence of insert, remove, and clear operations in which
no insert re-supplies a key currently stored away from its home index,
each key occupies at most one slot. -/
theorem c3_unique_keys (hash : K → Nat) (c : Nat) (ops : List (Op K V)) (m : HashMap K V)
    (hrun : GoodRun hash (with_capacity c) ops m) : UniqueKeys m := by
  have hbase : Inv (with_capacity c : HashMap K V) := by
    refine ⟨by simp [with_capacity], ?_⟩
    intro k i j vi vj hi hj
    rw [bucketAt_with_capacity] at hi
    exact Entry.noConfusion hi
  exact (goodRun_inv hrun hbase).2

/-- C3 amended, witnessed on the run consisting of one insert into a
fresh capacity-3 table. -/
theorem c3_unique_keys_witness : UniqueKeys exM1 :=
  c3_unique_keys hashId 3 [Op.ins 0 10] exM1
    (GoodRun.ins _ 0 10 (true, none) exM1 [] exM1
      (by
        intro i v0 hi
        rw [bucketAt_with_capacity] at hi
        exact Entry.noConfusion hi)
      (by decide) (GoodRun.nil _))

/-! ### C8: equality -/

theorem eqAll_true_iff {hash : K → Nat} {l : List (K × V)} {b : HashMap K V} :
    eqAll hash l b = some true ↔ ∀ p ∈ l, get hash b p.1 = some (some p.2) := by
  induction l with
  | nil => simp [eqAll]
  | cons p rest ih =>
    rcases p with ⟨k, v⟩
    rcases hg : get hash b k with _ | o
    · simp only [eqAll, hg]
      constructor
      · intro h
        exact absurd h (by simp)
      · intro h
        have h2 := h (k, v) (List.mem_cons_self _ _)
        rw [hg] at h2
        exact Option.noConfusion h2
    · rcases o with _ | v2
      · simp only [eqAll, hg]
        constructor
        · intro h
          exact absurd h (by simp)
        · intro h
          have h2 := h (k, v) (List.mem_cons_self _ _)
          rw [hg] at h2
          simp at h2
      · simp only [eqAll, hg]
        by_cases hv : v = v2
        · rw [if_pos hv, ih]
          constructor
          · intro h q hq
            rcases List.mem_cons.mp hq with h1 | h1
            · subst h1
              show get hash b k = some (some v)
              rw [hg, hv]
            · exact h q h1
          · intro h q hq
            exact h q (List.mem_cons_of_mem _ hq)
        · rw [if_neg hv]
          constructor
          · intro h
            exact absurd h (by simp)
          · intro h
            have h2 := h (k, v) (List.mem_cons_self _ _)
            rw [hg] at h2
            have h3 : v2 = v := by simpa using h2
            exact absurd h3.symm hv

theorem eq_true_iff {hash : K → Nat} {a b : HashMap K V} :
    eq hash a b = some true ↔
      a.length = b.length ∧ ∀ p ∈ entries a, get hash b p.1 = some (some p.2) := by
  by_cases hlen : a.length = b.length
  · simp only [eq, if_pos hlen, eqAll_true_iff]
    exact ⟨fun h => ⟨hlen, h⟩, fun h => h.2⟩
  · simp only [eq, if_neg hlen]
    constructor
    · intro h
      exact absurd h (by simp)
    · intro h
      exact absurd h.1 hlen

theorem pairs_val_unique {l : List (K × V)} (hnd : (l.map Prod.fst).Nodup) {k : K} {v v' : V}
    (h1 : (k, v) ∈ l) (h2 : (k, v') ∈ l) : v = v' := by
  induction l with
  | nil => simp at h1
  | cons p rest ih =>
    have hnd2 : (p.1 :: rest.map Prod.fst).Nodup := hnd
    have hni := (List.nodup_cons.mp hnd2).1
    have hndr := (List.nodup_cons.mp hnd2).2
    rcases List.mem_cons.mp h1 with e1 | e1 <;> rcases List.mem_cons.mp h2 with e2 | e2
    · have h3 : (k, v) = (k, v') := e1.trans e2.symm
      simpa using h3
    · exfalso
      apply hni
      rw [← e1]
      exact List.mem_map.mpr ⟨(k, v'), e2, rfl⟩
    · exfalso
      apply hni
      rw [← e2]
      exact List.mem_map.mpr ⟨(k, v), e1, rfl⟩
    · exact ih hndr e1 e2

/-- C8 counterexample: `exB` and `exA` are both reachable from `exM2` by
one further insert, `exB == exA` evaluates to `true`, yet `exA == exB`
evaluates to `false` (key 3 occupies two slots of `exA` with different
values, so the containment argument breaks down). -/
theorem c8_counterexample :
    insert hashId (with_capacity 3) 0 10 = some ((true, none), exM1) ∧
    insert hashId exM1 3 30 = some ((true, none), exM2) ∧
    insert hashId exM2 3 99 = some ((true, none), exA) ∧
    insert hashId exM2 3 30 = some ((true, none), exB) ∧
    eq hashId exB exA = some true ∧ eq hashId exA exB = some false := by
  refine ⟨by decide, by decide, by decide, by decide, by decide, by decide⟩

/-- C8 amended: table equality is symmetric on well-formed tables —
tables whose length counter is accurate, whose keys occupy one slot
each, and whose stored keys are probe-reachable (all tables built by
successful inserts of distinct keys are such). -/
theorem c8_eq_symm (hash : K → Nat) (A B : HashMap K V)
    (hA : WF hash A) (hB : WF hash B) (h : eq hash A B = some true) :
    eq hash B A = some true := by
  obtain ⟨hlen, hAB⟩ := eq_true_iff.mp h
  have hndA := hA.2.2.2.1
  have hndB := hB.2.2.2.1
  have hlenA := hA.2.2.1
  have hlenB := hB.2.2.1
  have hsubE : ∀ p ∈ entries A, p ∈ entries B := by
    intro p hp
    rcases p with ⟨k, v⟩
    exact get_found_mem (hAB (k, v) hp)
  have hsubK : ∀ x ∈ keysOf A, x ∈ keysOf B := by
    intro x hx
    rcases List.mem_map.mp hx with ⟨p, hp, hpe⟩
    subst hpe
    exact List.mem_map_of_mem Prod.fst (hsubE p hp)
  have hcard : (keysOf A).length = (keysOf B).length := by
    simp only [keysOf, List.length_map]
    rw [← hlenA, ← hlenB]
    exact hlen
  have hfin : (keysOf A).toFinset = (keysOf B).toFinset := by
    apply Finset.eq_of_subset_of_card_le
    · intro x hx
      exact List.mem_toFinset.mpr (hsubK x (List.mem_toFinset.mp hx))
    · rw [List.toFinset_card_of_nodup hndA, List.toFinset_card_of_nodup hndB]
      exact le_of_eq hcard.symm
  have hsubK2 : ∀ x ∈ keysOf B, x ∈ keysOf A := by
    intro x hx
    exact List.mem_toFinset.mp (hfin ▸ List.mem_toFinset.mpr hx)
  refine eq_true_iff.mpr ⟨hlen.symm, ?_⟩
  intro p hp
  rcases p with ⟨k, v⟩
  have hkA : k ∈ keysOf A := hsubK2 k (List.mem_map_of_mem Prod.fst hp)
  rcases List.mem_map.mp hkA with ⟨q, hq, hqk⟩
  rcases q with ⟨k2, v2⟩
  have hk2 : k2 = k := hqk
  subst hk2
  have hgB : get hash B k2 = some (some v2) := hAB (k2, v2) hq
  have hmemB : (k2, v2) ∈ entries B := get_found_mem hgB
  have hvv : v = v2 := pairs_val_unique hndB hp hmemB
  show get hash A k2 = some (some v)
  rw [hvv]
  exact lookup_found hA hq

theorem wf_exW2 : WF hashId exW2 := by
  refine ⟨by decide, by decide, by decide, by decide, by decide⟩

/-- C8 amended, witnessed on the well-formed table `exW2` compared with
itself. -/
theorem c8_eq_symm_witness : eq hashId exW2 exW2 = some true :=
  c8_eq_symm hashId exW2 exW2 wf_exW2 wf_exW2 (by decide)

end HM
